import Mathlib

/-!
Verification of the Devote protocol consensus-state manager of go-etherzero
(`DevoteProtocol` in `core/types/devote_protocol.go`).

The manager owns six authenticated maps (cycle, cache, vote, masternode,
minerRolling, voteCnt) and exposes registration, delegation, rotation
accounting, snapshot/revert, commit and combined-root operations.  The
underlying authenticated trie engine (package `trie`) is an external
collaborator of the core; it is modelled here, from its documented contract,
as a canonically ordered association list from byte-string keys to
byte-string values, whose content-addressed root is its canonical entry
list.  All getters, mutators and the iteration order (lexicographic on key
bytes, with a proper prefix before its extensions) follow the engine's
behaviour: reading an absent key yields nil without error, deleting an
absent key is a no-op, and an iterator started at a seek key visits exactly
the entries whose key is greater than or equal to the seek key, over the
trie as it was when the iterator was created (the in-memory nodes are
persistent, so later mutations do not affect a running iterator).
-/

/-- Byte strings (keys and values of the authenticated maps) are modelled as
lists of naturals. -/
abbrev Bytes := List Nat

/-- Lexicographic strict order on byte strings, a proper prefix ordered
before its extensions.  This is the order in which a trie iterator visits
keys. -/
def lexLt : Bytes → Bytes → Bool
  | [], [] => false
  | [], _ :: _ => true
  | _ :: _, [] => false
  | a :: as, b :: bs => if a < b then true else if b < a then false else lexLt as bs

/-- Account addresses (`common.Address`) are exactly 20 bytes. -/
structure Address where
  bytes : Bytes
  size_eq : bytes.length = 20
  deriving DecidableEq

/-- Convenient concrete address whose 20 bytes all equal `b`. -/
def mkAddr (b : Nat) : Address :=
  ⟨List.replicate 20 b, by simp⟩

/-- Modelled from the spec: the authenticated map of the external trie
engine (package `trie`, not under `src/`), per the §6 contract, as an
association list of key/value entries.  A well-formed trie keeps its
entries strictly sorted by key, which makes the representation canonical. -/
abbrev Trie := List (Bytes × Bytes)

/-- Modelled from the spec: `get(key) → value | NotFound` of the §6 map
contract (`trie.TryGet` returns nil for an absent key, without error). -/
def trieGet (k : Bytes) : Trie → Option Bytes
  | [] => none
  | kv :: rest => if kv.1 = k then some kv.2 else trieGet k rest

/-- Modelled from the spec: `put(key, value)` of the §6 map contract
(`trie.TryUpdate` inserts or overwrites), keeping the canonical key order. -/
def trieInsert (k v : Bytes) : Trie → Trie
  | [] => [(k, v)]
  | kv :: rest =>
    if lexLt k kv.1 then (k, v) :: kv :: rest
    else if kv.1 = k then (k, v) :: rest
    else kv :: trieInsert k v rest

/-- Modelled from the spec: `delete(key)` of the §6 map contract
(`trie.TryDelete`; deleting an absent key is a benign no-op). -/
def trieDelete (k : Bytes) : Trie → Trie
  | [] => []
  | kv :: rest => if kv.1 = k then trieDelete k rest else kv :: trieDelete k rest

/-- Ordered insertion of one entry, used to canonicalize an entry list. -/
def ordInsert (kv : Bytes × Bytes) : Trie → Trie
  | [] => [kv]
  | h :: t => if lexLt kv.1 h.1 then kv :: h :: t else h :: ordInsert kv t

/-- Canonical (key-sorted) form of an entry list. -/
def trieSort : Trie → Trie
  | [] => []
  | h :: t => ordInsert h (trieSort t)

/-- Modelled from the spec: `hash() → root` of the §6 map contract.  The
root of an authenticated map is content-addressed — it is determined by,
and determines, the key/value mapping — so it is modelled as the canonical
entry list itself. -/
def trieRootHash (t : Trie) : Trie := trieSort t

/-- Modelled from the spec: `iterate(prefix)` of the §6 map contract, as
used with `trie.NewIterator(t.NodeIterator(start))`: the visited entries
are those of the trie (at iterator creation time) whose key is `≥ start`
in the iteration order, visited in ascending key order. -/
def entriesGE (start : Bytes) (t : Trie) : Trie :=
  (trieSort t).filter (fun kv => !(lexLt kv.1 start))

/-- Whether a trie iterator started at `start` yields at least one entry
(the `iter.Next()` existence test of the source). -/
def existsGE (start : Bytes) (t : Trie) : Bool :=
  t.any (fun kv => !(lexLt kv.1 start))

/-- Go truncated integer division (`/` on `int64` rounds toward zero). -/
def goDiv (a b : Int) : Int := Int.tdiv a b

/-- Go conversion `uint64(i)` of an `int64` value. -/
def u64ofInt (i : Int) : Nat := (Int.emod i (2 ^ 64)).toNat

/-- Go conversion `int64(u)` of a `uint64` value. -/
def i64ofU64 (n : Nat) : Int :=
  if n < 2 ^ 63 then (n : Int) else (n : Int) - 2 ^ 64

/-- Big-endian 8-byte encoding of a `uint64` (`binary.BigEndian.PutUint64`). -/
def u64be (n : Nat) : Bytes :=
  [n / 2 ^ 56 % 256, n / 2 ^ 48 % 256, n / 2 ^ 40 % 256, n / 2 ^ 32 % 256,
   n / 2 ^ 24 % 256, n / 2 ^ 16 % 256, n / 2 ^ 8 % 256, n % 256]

/-- Big-endian read of an 8-byte counter (`binary.BigEndian.Uint64`). -/
def beU64 (b : Bytes) : Nat := b.foldl (fun a x => a * 256 + x) 0

/-- Fixed cycle length: `CycleInterval = int64(3600)` of the source. -/
def CycleInterval : Int := 3600

/-- State of the consensus-state manager: its six authenticated maps
(`DevoteProtocol` of the source; the per-map database handles and the disk
database only matter for `Commit`, which is modelled separately). -/
structure DevoteProtocol where
  cycleTrie : Trie
  cacheTrie : Trie
  voteTrie : Trie
  masternodeTrie : Trie
  minerRollingTrie : Trie
  voteCntTrie : Trie
  deriving DecidableEq

/-- The checkpoint value object (`DevoteProtocolAtomic` of the source):
six sub-roots, here the roots of the modelled maps. -/
structure DevoteProtocolAtomic where
  CycleHash : Bytes
  CacheHash : Bytes
  MasternodeHash : Bytes
  VoteHash : Bytes
  MinerRollingHash : Bytes
  VoteCntHash : Bytes
  deriving DecidableEq

/-- Modelled from the spec: the combined-root hash (`sha3.NewKeccak256`
fed with the `rlp` encoding of each sub-root, packages `crypto/sha3` and
`rlp`, not under `src/`).  A cryptographic hash of the canonically
serialized sequence of sub-roots is idealized as a collision-free function
of that sequence, so it is modelled as the sequence itself. -/
def keccakOfTrieRoots (roots : List Trie) : List Trie := roots

/-- Modelled from the spec: the combined-root hash over checkpoint fields,
same idealization as `keccakOfTrieRoots`. -/
def keccakOfHashes (roots : List Bytes) : List Bytes := roots

/-- Shallow embedding of `DevoteProtocol.Root` (lines 242–252): the hasher
is fed, in order, the roots of the cycle, cache, masternode, vote and
minerRolling tries.  The voteCnt trie is not an input. -/
def DevoteProtocol.Root (d : DevoteProtocol) : List Trie :=
  keccakOfTrieRoots
    [trieRootHash d.cycleTrie, trieRootHash d.cacheTrie,
     trieRootHash d.masternodeTrie, trieRootHash d.voteTrie,
     trieRootHash d.minerRollingTrie]

/-- Shallow embedding of `DevoteProtocolAtomic.Root` (lines 368–378): the
hasher is fed, in order, all six stored sub-roots, voteCnt included. -/
def DevoteProtocolAtomic.Root (p : DevoteProtocolAtomic) : List Bytes :=
  keccakOfHashes
    [p.CycleHash, p.CacheHash, p.MasternodeHash, p.VoteHash,
     p.MinerRollingHash, p.VoteCntHash]

/-- Shallow embedding of `DevoteProtocol.Register` (lines 179–185): insert
or overwrite the masternode entry, keyed by the masternode id, holding the
bonded account address bytes. -/
def DevoteProtocol.Register (d : DevoteProtocol) (masternodeid : Bytes)
    (account : Address) : DevoteProtocol :=
  { d with masternodeTrie := trieInsert masternodeid account.bytes d.masternodeTrie }

/-- Body of the `Unregister` cleanup loop (lines 198–221): for an iterated
cache entry, delete the cache entry keyed masternode‖delegator, and delete
the delegator's vote entry iff it still points at this masternode
(`bytes.Equal` against a nil read compares the empty string). -/
def unregStep (masternode : Bytes) (d : DevoteProtocol) (kv : Bytes × Bytes) :
    DevoteProtocol :=
  let delegator := kv.2
  let d1 := { d with cacheTrie := trieDelete (masternode ++ delegator) d.cacheTrie }
  if (trieGet delegator d1.voteTrie).getD [] = masternode then
    { d1 with voteTrie := trieDelete delegator d1.voteTrie }
  else d1

/-- Shallow embedding of `DevoteProtocol.Unregister` (lines 189–223):
delete the masternode entry keyed by the account address (a missing entry
is benign), then iterate the cache entries from the masternode's address
onward and run the cleanup body on each.  Absent storage faults the
function returns no error. -/
def DevoteProtocol.Unregister (d : DevoteProtocol) (masternodeAddr : Address) :
    Option String × DevoteProtocol :=
  let masternode := masternodeAddr.bytes
  let d1 := { d with masternodeTrie := trieDelete masternode d.masternodeTrie }
  (none, (entriesGE masternode d1.cacheTrie).foldl (unregStep masternode) d1)

/-- Snapshot object produced by `DevoteProtocol.Copy` (lines 225–240): a
duplicate of the five map handles (the voteCnt trie and the database
handles are not copied). -/
structure DevoteSnapshot where
  cycleTrie : Trie
  cacheTrie : Trie
  voteTrie : Trie
  masternodeTrie : Trie
  minerRollingTrie : Trie
  deriving DecidableEq

/-- Shallow embedding of `DevoteProtocol.Copy` (lines 225–240).  The Go
code copies the five trie structs; as trie nodes are persistent in memory,
the copy captures the five maps' contents at copy time. -/
def DevoteProtocol.Copy (d : DevoteProtocol) : DevoteSnapshot :=
  ⟨d.cycleTrie, d.cacheTrie, d.voteTrie, d.masternodeTrie, d.minerRollingTrie⟩

/-- Shallow embedding of `DevoteProtocol.Snapshot` (lines 254–256). -/
def DevoteProtocol.Snapshot (d : DevoteProtocol) : DevoteSnapshot := d.Copy

/-- Shallow embedding of `DevoteProtocol.RevertToSnapShot` (lines 258–265):
the five map handles are reset to the snapshot's; the voteCnt trie is left
as it is. -/
def DevoteProtocol.RevertToSnapShot (d : DevoteProtocol)
    (snapshot : DevoteSnapshot) : DevoteProtocol :=
  { d with
    cycleTrie := snapshot.cycleTrie
    cacheTrie := snapshot.cacheTrie
    masternodeTrie := snapshot.masternodeTrie
    voteTrie := snapshot.voteTrie
    minerRollingTrie := snapshot.minerRollingTrie }

/-- Key under which the witness list is stored (`[]byte("witness")`). -/
def witnessKey : Bytes := [119, 105, 116, 110, 101, 115, 115]

/-- Shallow embedding of `DevoteProtocol.SetWitnesses` (lines 380–389):
store the already-RLP-encoded witness list under the well-known key of the
cycle trie (the RLP encoder is external; the encoded payload is taken as
given). -/
def DevoteProtocol.SetWitnesses (d : DevoteProtocol) (witnessesRLP : Bytes) :
    DevoteProtocol :=
  { d with cycleTrie := trieInsert witnessKey witnessesRLP d.cycleTrie }

/-- Shallow embedding of `DevoteProtocol.Delegate` (lines 402–428): the
target must be a registered masternode (keyed by address); a stale cache
entry of a previous vote is removed; then the cache entry
masternode‖delegator → delegator and the vote entry delegator → masternode
are written.  The returned pair is (error, state of the receiver after the
call), the error strings being those of the source. -/
def DevoteProtocol.Delegate (d : DevoteProtocol)
    (delegatorAddr masternodeAddr : Address) : Option String × DevoteProtocol :=
  let delegator := delegatorAddr.bytes
  let masternode := masternodeAddr.bytes
  match trieGet masternode d.masternodeTrie with
  | none => (some ("invalid masternode to delegate"), d)
  | some _ =>
    let d1 :=
      match trieGet delegator d.voteTrie with
      | some oldMasternode =>
        { d with cacheTrie := trieDelete (oldMasternode ++ delegator) d.cacheTrie }
      | none => d
    let d2 := { d1 with cacheTrie := trieInsert (masternode ++ delegator) delegator d1.cacheTrie }
    (none, { d2 with voteTrie := trieInsert delegator masternode d2.voteTrie })

/-- Shallow embedding of `DevoteProtocol.UnDelegate` (lines 430–454): the
target must be a registered masternode; the delegator's current vote must
equal the target (`bytes.Equal` against a nil read compares the empty
string, so an absent vote is a mismatch); then the cache entry and the
vote entry are deleted. -/
def DevoteProtocol.UnDelegate (d : DevoteProtocol)
    (delegatorAddr masternodeAddr : Address) : Option String × DevoteProtocol :=
  let delegator := delegatorAddr.bytes
  let masternode := masternodeAddr.bytes
  match trieGet masternode d.masternodeTrie with
  | none => (some ("invalid masternode to undelegate"), d)
  | some _ =>
    if masternode = (trieGet delegator d.voteTrie).getD [] then
      let d1 := { d with cacheTrie := trieDelete (masternode ++ delegator) d.cacheTrie }
      (none, { d1 with voteTrie := trieDelete delegator d1.voteTrie })
    else (some ("mismatch masternode to undelegate"), d)

/-- Shallow embedding of `DevoteProtocol.Rolling` (lines 457–486): compute
the parent and current cycle indices by truncated division by
`CycleInterval`; if still in the same cycle and the rotation trie has any
entry at or after the cycle-index seek key, read the witness's previous
count and increment it, else start at 1; write the count under
newCycle‖witness. -/
def DevoteProtocol.Rolling (self : DevoteProtocol)
    (parentBlockTime currentBlockTime : Int) (witness : Address) : DevoteProtocol :=
  let currentCycle := goDiv parentBlockTime CycleInterval
  let currentCycleBytes := u64be (u64ofInt currentCycle)
  let newCycle := goDiv currentBlockTime CycleInterval
  let cnt : Int :=
    if currentCycle = newCycle ∧ existsGE currentCycleBytes self.minerRollingTrie = true then
      match trieGet (currentCycleBytes ++ witness.bytes) self.minerRollingTrie with
      | some cntBytes => i64ofU64 (beU64 cntBytes) + 1
      | none => 1
    else 1
  let newCycleBytes := u64be (u64ofInt newCycle)
  let newCntBytes := u64be (u64ofInt cnt)
  { self with
    minerRollingTrie :=
      trieInsert (newCycleBytes ++ witness.bytes) newCntBytes self.minerRollingTrie }

/-- Outcomes of the sub-commits that `DevoteProtocol.Commit` performs, in
source order: for each of the five mutable tries, the result of the trie's
`CommitTo` (a fresh root, or a storage error) and of the backing trie
database's `Commit` (`none` for success, or a storage error). -/
structure CommitEnv where
  cycleCommitTo : Except String Bytes
  cycleDbCommit : Option String
  cacheCommitTo : Except String Bytes
  cacheDbCommit : Option String
  voteCommitTo : Except String Bytes
  voteDbCommit : Option String
  masternodeCommitTo : Except String Bytes
  masternodeDbCommit : Option String
  minerRollingCommitTo : Except String Bytes
  minerRollingDbCommit : Option String

/-- Zero value of `common.Hash` (the checkpoint literal built by `Commit`
leaves `VoteCntHash` at its zero value). -/
def zeroHash : Bytes := List.replicate 32 0

/-- Shallow embedding of `DevoteProtocol.Commit` (lines 315–355), with the
sub-commit outcomes supplied by a `CommitEnv`.  The control flow follows
the source exactly: a `CommitTo` error is returned; on a cycle trie
database commit failure the source executes `return nil, err` where `err`
is the (nil) error of the preceding successful `CommitTo`; the commit
errors of the four remaining trie databases are discarded without a
check. -/
def DevoteProtocol.Commit (env : CommitEnv) :
    Option DevoteProtocolAtomic × Option String :=
  match env.cycleCommitTo with
  | Except.error e => (none, some e)
  | Except.ok cycleRoot =>
    let err : Option String := none
    match env.cycleDbCommit with
    | some _ => (none, err)
    | none =>
      match env.cacheCommitTo with
      | Except.error e => (none, some e)
      | Except.ok cacheRoot =>
        match env.voteCommitTo with
        | Except.error e => (none, some e)
        | Except.ok voteRoot =>
          match env.masternodeCommitTo with
          | Except.error e => (none, some e)
          | Except.ok masternodeRoot =>
            match env.minerRollingCommitTo with
            | Except.error e => (none, some e)
            | Except.ok minerRollingRoot =>
              (some ⟨cycleRoot, cacheRoot, masternodeRoot, voteRoot,
                     minerRollingRoot, zeroHash⟩, none)

/-- One mutating operation of the manager's public interface. -/
inductive DevoteOp where
  | register (id : Bytes) (account : Address)
  | unregister (account : Address)
  | delegate (delegator target : Address)
  | undelegate (delegator target : Address)
  | rolling (parentTime currentTime : Int) (witness : Address)
  | setWitnesses (encoded : Bytes)

/-- Effect of one mutating operation on the manager state (the receiver's
state after the call, whether or not the call reported an error). -/
def applyOp (d : DevoteProtocol) : DevoteOp → DevoteProtocol
  | DevoteOp.register i a => d.Register i a
  | DevoteOp.unregister a => (d.Unregister a).2
  | DevoteOp.delegate x m => (d.Delegate x m).2
  | DevoteOp.undelegate x m => (d.UnDelegate x m).2
  | DevoteOp.rolling p c w => d.Rolling p c w
  | DevoteOp.setWitnesses b => d.SetWitnesses b

/-- Effect of a finite sequence of mutating operations. -/
def applyOps (d : DevoteProtocol) (ops : List DevoteOp) : DevoteProtocol :=
  ops.foldl applyOp d

/-- A well-formed trie: entries strictly sorted by key (hence keys are
pairwise distinct), the canonical representation the engine maintains. -/
def sortedByKey (t : Trie) : Prop :=
  List.Pairwise (fun a b : Bytes × Bytes => lexLt a.1 b.1 = true) t

/-- Number of entries of a trie carrying the key `k`. -/
def countKey (k : Bytes) (t : Trie) : Nat :=
  (t.filter (fun kv => kv.1 == k)).length

/-- Concrete masternode account address used in witnesses. -/
def addrM : Address := mkAddr 1

/-- Concrete delegator address used in witnesses. -/
def addrD1 : Address := mkAddr 2

/-- Concrete delegator address used in witnesses. -/
def addrD2 : Address := mkAddr 3

/-- Concrete delegator address used in witnesses. -/
def addrD3 : Address := mkAddr 4

/-- Concrete second masternode account address used in witnesses. -/
def addrM2 : Address := mkAddr 5

/-- Concrete witness (block producer) address used in witnesses. -/
def addrW : Address := mkAddr 9

/-- Manager state with all six maps empty. -/
def emptyDevote : DevoteProtocol := ⟨[], [], [], [], [], []⟩

/-- Manager state that differs from `emptyDevote` exactly in the voteCnt
trie. -/
def voteCntOnly : DevoteProtocol := ⟨[], [], [], [], [], [([0], [1])]⟩

/-- Concrete state: masternode `addrM` registered under its address, with
delegators `addrD1` and `addrD2` (their cache and vote entries present). -/
def unregState : DevoteProtocol :=
  ⟨[],
   [(addrM.bytes ++ addrD1.bytes, addrD1.bytes),
    (addrM.bytes ++ addrD2.bytes, addrD2.bytes)],
   [(addrD1.bytes, addrM.bytes), (addrD2.bytes, addrM.bytes)],
   [(addrM.bytes, addrM.bytes)], [], []⟩

/-- Concrete state: masternodes `addrM` and `addrM2` registered, delegator
`addrD1` currently voting for `addrM` (cache and vote entries present). -/
def votedState : DevoteProtocol :=
  ⟨[],
   [(addrM.bytes ++ addrD1.bytes, addrD1.bytes)],
   [(addrD1.bytes, addrM.bytes)],
   [(addrM.bytes, addrM.bytes), (addrM2.bytes, addrM2.bytes)], [], []⟩

/-- Commit outcomes in which every trie `CommitTo` succeeds but the cycle
trie database's `Commit` fails with a storage error. -/
def commitBugEnv : CommitEnv :=
  ⟨Except.ok (List.replicate 32 7), some ("leveldb: write failed"),
   Except.ok zeroHash, none,
   Except.ok zeroHash, none,
   Except.ok zeroHash, none,
   Except.ok zeroHash, none⟩

/-- Negative block timestamp used to refute the unrestricted form of the
rotation-accounting claim. -/
def negT : Int := -1800

/-- An extension of a key is never ordered strictly before the key. -/
theorem lexLt_append (a b : Bytes) : lexLt (a ++ b) a = false := by
  induction a with
  | nil => cases b <;> rfl
  | cons x as ih => simp [lexLt, ih]

/-- The iteration order is irreflexive. -/
theorem lexLt_irrefl (a : Bytes) : lexLt a a = false := by
  have h := lexLt_append a []
  simpa using h

/-- The iteration order is transitive. -/
theorem lexLt_trans (a : Bytes) : ∀ b c : Bytes,
    lexLt a b = true → lexLt b c = true → lexLt a c = true := by
  induction a with
  | nil =>
    intro b c hab hbc
    cases b with
    | nil => simp [lexLt] at hab
    | cons y bs =>
      cases c with
      | nil => simp [lexLt] at hbc
      | cons z cs => rfl
  | cons x as ih =>
    intro b c hab hbc
    cases b with
    | nil => simp [lexLt] at hab
    | cons y bs =>
      cases c with
      | nil => simp [lexLt] at hbc
      | cons z cs =>
        simp only [lexLt] at hab hbc ⊢
        split_ifs at hab hbc ⊢ <;>
          first
          | rfl
          | (exact ih bs cs hab hbc)
          | (exfalso; omega)
          | (simp at hab)
          | (simp at hbc)

/-- The iteration order is total on distinct keys. -/
theorem lexLt_total (a : Bytes) : ∀ b : Bytes, a ≠ b →
    lexLt a b = true ∨ lexLt b a = true := by
  induction a with
  | nil =>
    intro b hne
    cases b with
    | nil => exact absurd rfl hne
    | cons y bs => exact Or.inl rfl
  | cons x as ih =>
    intro b hne
    cases b with
    | nil => exact Or.inr rfl
    | cons y bs =>
      rcases Nat.lt_trichotomy x y with h | h | h
      · exact Or.inl (by simp [lexLt, h])
      · subst h
        have hne2 : as ≠ bs := fun hh => hne (by rw [hh])
        rcases ih bs hne2 with h2 | h2
        · exact Or.inl (by simp [lexLt, h2])
        · exact Or.inr (by simp [lexLt, h2])
      · exact Or.inr (by simp [lexLt, h])

/-- Reading after an insert: the inserted key reads the inserted value,
every other key is unaffected. -/
theorem trieGet_insert (q k v : Bytes) (t : Trie) :
    trieGet q (trieInsert k v t) = if q = k then some v else trieGet q t := by
  induction t with
  | nil =>
    simp only [trieInsert, trieGet]
    by_cases h : q = k
    · simp [h]
    · rw [if_neg (fun hh => h hh.symm), if_neg h]
  | cons kv rest ih =>
    simp only [trieInsert]
    by_cases h1 : lexLt k kv.1
    · simp only [if_pos h1, trieGet]
      by_cases h : q = k
      · simp [h]
      · rw [if_neg (fun hh => h hh.symm), if_neg h]
    · rw [if_neg h1]
      by_cases h2 : kv.1 = k
      · simp only [if_pos h2, trieGet]
        by_cases h : q = k
        · simp [h, h2]
        · rw [if_neg (fun hh => h hh.symm), if_neg h,
            if_neg (show ¬kv.1 = q from fun hh => h (hh.symm.trans h2))]
      · simp only [if_neg h2, trieGet, ih]
        by_cases h3 : kv.1 = q
        · rw [if_pos h3, if_neg (fun hh : q = k => h2 (h3.trans hh)), if_pos h3]
        · rw [if_neg h3]
          by_cases h : q = k
          · simp [h]
          · rw [if_neg h, if_neg h, if_neg h3]

/-- Reading after a delete: the deleted key reads absent, every other key
is unaffected. -/
theorem trieGet_delete (q k : Bytes) (t : Trie) :
    trieGet q (trieDelete k t) = if q = k then none else trieGet q t := by
  induction t with
  | nil => simp [trieDelete, trieGet]
  | cons kv rest ih =>
    simp only [trieDelete]
    by_cases h1 : kv.1 = k
    · rw [if_pos h1, ih]
      by_cases h : q = k
      · simp [h]
      · simp [h, trieGet, show ¬kv.1 = q from fun hh => h (hh.symm.trans h1)]
    · rw [if_neg h1]
      simp only [trieGet, ih]
      by_cases h3 : kv.1 = q
      · rw [if_pos h3, if_neg (fun hh : q = k => h1 (h3.trans hh)), if_pos h3]
      · rw [if_neg h3]
        by_cases h : q = k
        · simp [h]
        · rw [if_neg h, if_neg h, if_neg h3]

/-- A key reads absent exactly when no entry carries it. -/
theorem trieGet_eq_none (k : Bytes) (t : Trie) :
    trieGet k t = none ↔ ∀ kv ∈ t, kv.1 ≠ k := by
  induction t with
  | nil => simp [trieGet]
  | cons kv rest ih => by_cases h : kv.1 = k <;> simp [trieGet, h, ih]

/-- Deleting an absent key is the identity. -/
theorem trieDelete_of_get_none (k : Bytes) (t : Trie)
    (h : trieGet k t = none) : trieDelete k t = t := by
  induction t with
  | nil => rfl
  | cons kv rest ih =>
    simp only [trieGet] at h
    by_cases h1 : kv.1 = k
    · simp [h1] at h
    · rw [if_neg h1] at h
      simp [trieDelete, h1, ih h]

/-- Deleting a key right after inserting it deletes it from the original
trie as well. -/
theorem trieDelete_insert_same (k v : Bytes) (t : Trie) :
    trieDelete k (trieInsert k v t) = trieDelete k t := by
  induction t with
  | nil => simp [trieInsert, trieDelete]
  | cons kv rest ih =>
    simp only [trieInsert]
    by_cases h1 : lexLt k kv.1
    · simp [if_pos h1, trieDelete]
    · by_cases h2 : kv.1 = k
      · simp [if_neg h1, if_pos h2, trieDelete, h2, lexLt_irrefl]
      · simp [if_neg h1, if_neg h2, trieDelete, ih]

/-- A successful read exhibits a member entry. -/
theorem trieGet_mem (k v : Bytes) (t : Trie) (h : trieGet k t = some v) :
    (k, v) ∈ t := by
  induction t with
  | nil => simp [trieGet] at h
  | cons kv rest ih =>
    simp only [trieGet] at h
    by_cases h1 : kv.1 = k
    · rw [if_pos h1] at h
      injection h with h2
      cases kv
      cases h1
      cases h2
      exact List.mem_cons_self _ _
    · rw [if_neg h1] at h
      exact List.mem_cons_of_mem _ (ih h)

/-- Membership through ordered insertion. -/
theorem mem_ordInsert (x kv : Bytes × Bytes) (t : Trie) :
    x ∈ ordInsert kv t ↔ x = kv ∨ x ∈ t := by
  induction t with
  | nil => simp [ordInsert]
  | cons h t ih =>
    by_cases hc : lexLt kv.1 h.1 <;> simp [ordInsert, hc, ih] <;> tauto

/-- Sorting preserves membership. -/
theorem mem_trieSort (x : Bytes × Bytes) (t : Trie) :
    x ∈ trieSort t ↔ x ∈ t := by
  induction t with
  | nil => simp [trieSort]
  | cons h t ih => simp [trieSort, mem_ordInsert, ih]

/-- Membership in an iterator's entry list. -/
theorem mem_entriesGE (x : Bytes × Bytes) (p : Bytes) (t : Trie) :
    x ∈ entriesGE p t ↔ x ∈ t ∧ lexLt x.1 p = false := by
  simp [entriesGE, List.mem_filter, mem_trieSort]

/-- Deletion only removes entries. -/
theorem mem_trieDelete (x : Bytes × Bytes) (k : Bytes) (t : Trie)
    (h : x ∈ trieDelete k t) : x ∈ t := by
  induction t with
  | nil => simpa [trieDelete] using h
  | cons kv rest ih =>
    by_cases h1 : kv.1 = k
    · rw [trieDelete, if_pos h1] at h
      exact List.mem_cons_of_mem _ (ih h)
    · rw [trieDelete, if_neg h1] at h
      rcases List.mem_cons.mp h with h2 | h2
      · exact h2 ▸ List.mem_cons_self _ _
      · exact List.mem_cons_of_mem _ (ih h2)

/-- The cleanup body only touches the cache and vote tries: cache effect. -/
theorem unregStep_cacheTrie (m : Bytes) (d : DevoteProtocol) (kv : Bytes × Bytes) :
    (unregStep m d kv).cacheTrie = trieDelete (m ++ kv.2) d.cacheTrie := by
  simp only [unregStep]
  split <;> rfl

/-- The cleanup body only touches the cache and vote tries: vote effect. -/
theorem unregStep_voteTrie (m : Bytes) (d : DevoteProtocol) (kv : Bytes × Bytes) :
    (unregStep m d kv).voteTrie =
      if (trieGet kv.2 d.voteTrie).getD [] = m then trieDelete kv.2 d.voteTrie
      else d.voteTrie := by
  by_cases hc : (trieGet kv.2 d.voteTrie).getD [] = m
  · simp only [unregStep, if_pos hc]
  · simp only [unregStep, if_neg hc]

/-- The cleanup body leaves the masternode trie alone. -/
theorem unregStep_masternodeTrie (m : Bytes) (d : DevoteProtocol) (kv : Bytes × Bytes) :
    (unregStep m d kv).masternodeTrie = d.masternodeTrie := by
  simp only [unregStep]
  split <;> rfl

/-- A cleanup body run on entries it cannot affect is the identity. -/
theorem unregStep_id (m : Bytes) (d : DevoteProtocol) (kv : Bytes × Bytes)
    (hca : trieGet (m ++ kv.2) d.cacheTrie = none)
    (hvo : ¬(trieGet kv.2 d.voteTrie).getD [] = m) :
    unregStep m d kv = d := by
  cases d with
  | mk c ca v ma mi vc =>
    simp only [unregStep] at hca hvo ⊢
    rw [if_neg hvo, trieDelete_of_get_none _ _ hca]

/-- The cleanup loop leaves the masternode trie alone. -/
theorem unregFold_masternodeTrie (m : Bytes) (l : Trie) : ∀ d : DevoteProtocol,
    (l.foldl (unregStep m) d).masternodeTrie = d.masternodeTrie := by
  induction l with
  | nil => intro d; rfl
  | cons kv rest ih =>
    intro d
    rw [List.foldl_cons, ih, unregStep_masternodeTrie]

/-- The cleanup loop never adds cache entries. -/
theorem unregFold_cache_none (m k : Bytes) (l : Trie) : ∀ d : DevoteProtocol,
    trieGet k d.cacheTrie = none →
    trieGet k (l.foldl (unregStep m) d).cacheTrie = none := by
  induction l with
  | nil => intro d h; exact h
  | cons kv rest ih =>
    intro d h
    rw [List.foldl_cons]
    apply ih
    rw [unregStep_cacheTrie, trieGet_delete]
    by_cases hq : k = m ++ kv.2 <;> simp [hq, h]

/-- The cleanup loop never adds vote entries. -/
theorem unregFold_vote_none (m x : Bytes) (l : Trie) : ∀ d : DevoteProtocol,
    trieGet x d.voteTrie = none →
    trieGet x (l.foldl (unregStep m) d).voteTrie = none := by
  induction l with
  | nil => intro d h; exact h
  | cons kv rest ih =>
    intro d h
    rw [List.foldl_cons]
    apply ih
    rw [unregStep_voteTrie]
    by_cases hc : (trieGet kv.2 d.voteTrie).getD [] = m
    · rw [if_pos hc, trieGet_delete]
      by_cases hx : x = kv.2 <;> simp [hx, h]
    · rw [if_neg hc]
      exact h

/-- The cleanup loop never rebinds a vote: a surviving vote entry kept its
value. -/
theorem unregFold_vote_stable (m x w : Bytes) (l : Trie) : ∀ d : DevoteProtocol,
    trieGet x (l.foldl (unregStep m) d).voteTrie = some w →
    trieGet x d.voteTrie = some w := by
  induction l with
  | nil => intro d h; exact h
  | cons kv rest ih =>
    intro d h
    rw [List.foldl_cons] at h
    have h2 := ih _ h
    rw [unregStep_voteTrie] at h2
    by_cases hc : (trieGet kv.2 d.voteTrie).getD [] = m
    · rw [if_pos hc, trieGet_delete] at h2
      by_cases hx : x = kv.2
      · simp [hx] at h2
      · simpa [hx] using h2
    · rwa [if_neg hc] at h2

/-- The cleanup loop only removes cache entries. -/
theorem unregFold_cache_mem (m : Bytes) (l : Trie) :
    ∀ (d : DevoteProtocol) (x : Bytes × Bytes),
    x ∈ (l.foldl (unregStep m) d).cacheTrie → x ∈ d.cacheTrie := by
  induction l with
  | nil => intro d x h; exact h
  | cons kv rest ih =>
    intro d x h
    rw [List.foldl_cons] at h
    have h2 := ih _ _ h
    rw [unregStep_cacheTrie] at h2
    exact mem_trieDelete _ _ _ h2

/-- Every iterated entry has its masternode‖value cache key deleted by the
cleanup loop. -/
theorem unregFold_cache_killed (m : Bytes) (l : Trie) :
    ∀ (d : DevoteProtocol) (kv : Bytes × Bytes), kv ∈ l →
    trieGet (m ++ kv.2) (l.foldl (unregStep m) d).cacheTrie = none := by
  induction l with
  | nil => intro d kv h; simp at h
  | cons hd rest ih =>
    intro d kv h
    rw [List.foldl_cons]
    rcases List.mem_cons.mp h with rfl | h2
    · apply unregFold_cache_none
      rw [unregStep_cacheTrie, trieGet_delete, if_pos rfl]
    · exact ih _ _ h2

/-- Every iterated entry whose value voted for the unregistered masternode
(or had no vote) ends with no vote entry. -/
theorem unregFold_vote_gone (m : Bytes) (l : Trie) :
    ∀ (d : DevoteProtocol) (kv : Bytes × Bytes), kv ∈ l →
    (trieGet kv.2 d.voteTrie = some m ∨ trieGet kv.2 d.voteTrie = none) →
    trieGet kv.2 (l.foldl (unregStep m) d).voteTrie = none := by
  induction l with
  | nil => intro d kv h; simp at h
  | cons hd rest ih =>
    intro d kv h hdisj
    rw [List.foldl_cons]
    rcases List.mem_cons.mp h with rfl | h2
    · apply unregFold_vote_none
      rw [unregStep_voteTrie]
      rcases hdisj with hsome | hnone
      · rw [if_pos (by rw [hsome]; rfl), trieGet_delete, if_pos rfl]
      · by_cases hc : (trieGet kv.2 d.voteTrie).getD [] = m
        · rw [if_pos hc, trieGet_delete, if_pos rfl]
        · rw [if_neg hc]
          exact hnone
    · apply ih _ _ h2
      rw [unregStep_voteTrie]
      by_cases hc : (trieGet hd.2 d.voteTrie).getD [] = m
      · rw [if_pos hc, trieGet_delete]
        by_cases hx : kv.2 = hd.2
        · simp [hx]
        · rw [if_neg hx]
          exact hdisj
      · rw [if_neg hc]
        exact hdisj

/-- After the cleanup loop, no iterated entry's value still votes for the
unregistered masternode. -/
theorem unregFold_vote_not_m (m : Bytes) (l : Trie) :
    ∀ (d : DevoteProtocol) (kv : Bytes × Bytes), kv ∈ l →
    trieGet kv.2 (l.foldl (unregStep m) d).voteTrie ≠ some m := by
  induction l with
  | nil => intro d kv h; simp at h
  | cons hd rest ih =>
    intro d kv h
    rw [List.foldl_cons]
    rcases List.mem_cons.mp h with rfl | h2
    · by_cases hc : (trieGet kv.2 d.voteTrie).getD [] = m
      · intro hfin
        have hst := unregFold_vote_stable m kv.2 m rest _ hfin
        rw [unregStep_voteTrie, if_pos hc, trieGet_delete, if_pos rfl] at hst
        exact Option.noConfusion hst
      · intro hfin
        have hst := unregFold_vote_stable m kv.2 m rest _ hfin
        rw [unregStep_voteTrie, if_neg hc] at hst
        rw [hst] at hc
        exact hc rfl
    · exact ih _ _ h2

/-- The cleanup loop is the identity when no iterated entry can be
affected. -/
theorem unregFold_id (m : Bytes) (hm : m ≠ []) (l : Trie) : ∀ d : DevoteProtocol,
    (∀ kv ∈ l, trieGet (m ++ kv.2) d.cacheTrie = none ∧
      trieGet kv.2 d.voteTrie ≠ some m) →
    l.foldl (unregStep m) d = d := by
  induction l with
  | nil => intro d _; rfl
  | cons hd rest ih =>
    intro d hcond
    rcases hcond hd (List.mem_cons_self _ _) with ⟨hca, hvo⟩
    have hc : ¬(trieGet hd.2 d.voteTrie).getD [] = m := by
      cases hv : trieGet hd.2 d.voteTrie with
      | none =>
        simp only [Option.getD_none]
        exact Ne.symm hm
      | some w =>
        simp only [Option.getD_some]
        intro hh
        exact hvo (by rw [hv, hh])
    rw [List.foldl_cons, unregStep_id m d hd hca hc]
    exact ih d (fun kv hkv => hcond kv (List.mem_cons_of_mem _ hkv))

/-- `Delegate` never touches the masternode trie. -/
theorem Delegate_masternodeTrie (d : DevoteProtocol) (D M : Address) :
    ((d.Delegate D M).2).masternodeTrie = d.masternodeTrie := by
  unfold DevoteProtocol.Delegate
  rcases hM : trieGet M.bytes d.masternodeTrie with _ | w
  · simp [hM]
  · rcases hv : trieGet D.bytes d.voteTrie with _ | om <;> simp [hM, hv]

/-- Full outcome of a `Delegate` call on a registered target. -/
theorem Delegate_ok_pair (d : DevoteProtocol) (D M : Address) (w : Bytes)
    (h : trieGet M.bytes d.masternodeTrie = some w) :
    d.Delegate D M =
      (none,
        { d with
          cacheTrie := trieInsert (M.bytes ++ D.bytes) D.bytes
            (match trieGet D.bytes d.voteTrie with
             | some om => trieDelete (om ++ D.bytes) d.cacheTrie
             | none => d.cacheTrie),
          voteTrie := trieInsert D.bytes M.bytes d.voteTrie }) := by
  simp only [DevoteProtocol.Delegate, h]
  rcases hv : trieGet D.bytes d.voteTrie with _ | om <;> simp [hv]

/-- Outcome of a `Delegate` call for a delegator with no current vote. -/
theorem Delegate_fresh (d : DevoteProtocol) (D M : Address) (w : Bytes)
    (h : trieGet M.bytes d.masternodeTrie = some w)
    (hv : trieGet D.bytes d.voteTrie = none) :
    d.Delegate D M =
      (none,
        { d with
          cacheTrie := trieInsert (M.bytes ++ D.bytes) D.bytes d.cacheTrie,
          voteTrie := trieInsert D.bytes M.bytes d.voteTrie }) := by
  simp only [DevoteProtocol.Delegate, h, hv]

/-- A `Delegate` call on a registered target reports no error. -/
theorem Delegate_err_none (d : DevoteProtocol) (D M : Address) (w : Bytes)
    (h : trieGet M.bytes d.masternodeTrie = some w) :
    (d.Delegate D M).1 = none := by
  rw [Delegate_ok_pair d D M w h]

/-- A `Delegate` call on a registered target rebinds the delegator's vote
entry to the target. -/
theorem Delegate_voteTrie_ok (d : DevoteProtocol) (D M : Address) (w : Bytes)
    (h : trieGet M.bytes d.masternodeTrie = some w) :
    ((d.Delegate D M).2).voteTrie = trieInsert D.bytes M.bytes d.voteTrie := by
  rw [Delegate_ok_pair d D M w h]

/-- Entries of an insert: the inserted pair or an original entry. -/
theorem mem_trieInsert (x : Bytes × Bytes) (k v : Bytes) (t : Trie)
    (h : x ∈ trieInsert k v t) : x = (k, v) ∨ x ∈ t := by
  induction t with
  | nil => simpa [trieInsert] using h
  | cons kv rest ih =>
    simp only [trieInsert] at h
    by_cases h1 : lexLt k kv.1
    · rw [if_pos h1] at h
      rcases List.mem_cons.mp h with h2 | h2
      · exact Or.inl h2
      · exact Or.inr h2
    · rw [if_neg h1] at h
      by_cases h2 : kv.1 = k
      · rw [if_pos h2] at h
        rcases List.mem_cons.mp h with h3 | h3
        · exact Or.inl h3
        · exact Or.inr (List.mem_cons_of_mem _ h3)
      · rw [if_neg h2] at h
        rcases List.mem_cons.mp h with h3 | h3
        · exact Or.inr (h3 ▸ List.mem_cons_self _ _)
        · rcases ih h3 with h4 | h4
          · exact Or.inl h4
          · exact Or.inr (List.mem_cons_of_mem _ h4)

/-- Insertion preserves the strict key order. -/
theorem sortedByKey_insert (k v : Bytes) (t : Trie) (h : sortedByKey t) :
    sortedByKey (trieInsert k v t) := by
  induction t with
  | nil => simp [trieInsert, sortedByKey]
  | cons kv rest ih =>
    rcases List.pairwise_cons.mp h with ⟨hkv, hrest⟩
    simp only [trieInsert]
    by_cases h1 : lexLt k kv.1
    · rw [if_pos h1]
      refine List.pairwise_cons.mpr ⟨?_, h⟩
      intro y hy
      rcases List.mem_cons.mp hy with rfl | hy2
      · exact h1
      · exact lexLt_trans _ _ _ h1 (hkv y hy2)
    · rw [if_neg h1]
      by_cases h2 : kv.1 = k
      · rw [if_pos h2]
        refine List.pairwise_cons.mpr ⟨?_, hrest⟩
        intro y hy
        have := hkv y hy
        rwa [h2] at this
      · rw [if_neg h2]
        refine List.pairwise_cons.mpr ⟨?_, ih hrest⟩
        intro y hy
        rcases mem_trieInsert y k v rest hy with rfl | hy2
        · rcases lexLt_total kv.1 k h2 with h3 | h3
          · exact h3
          · exact absurd h3 (by simpa using h1)
        · exact hkv y hy2

/-- In a well-formed trie, a readable key is carried by exactly one
entry. -/
theorem countKey_eq_one (t : Trie) (h : sortedByKey t) (k v : Bytes)
    (hget : trieGet k t = some v) : countKey k t = 1 := by
  induction t with
  | nil => simp [trieGet] at hget
  | cons kv rest ih =>
    rcases List.pairwise_cons.mp h with ⟨hkv, hrest⟩
    simp only [trieGet] at hget
    by_cases h1 : kv.1 = k
    · have hnone : ∀ y ∈ rest, ¬y.1 = k := by
        intro y hy heq
        have hlt := hkv y hy
        rw [h1, heq, lexLt_irrefl] at hlt
        exact Bool.noConfusion hlt
      have hrestnil : rest.filter (fun kv2 => kv2.1 == k) = [] := by
        rw [List.filter_eq_nil]
        intro y hy
        simpa using hnone y hy
      simp [countKey, List.filter, h1, hrestnil]
    · rw [if_neg h1] at hget
      have hne : (kv.1 == k) = false := by simpa using h1
      simp only [countKey, List.filter, hne]
      exact ih hrest hget

/-- First mint of a cycle on an empty rotation trie records count 1. -/
theorem Rolling_fresh (t : Int) (W : Address) (d : DevoteProtocol)
    (h : d.minerRollingTrie = []) :
    (d.Rolling t t W).minerRollingTrie =
      [(u64be (u64ofInt (goDiv t CycleInterval)) ++ W.bytes, u64be 1)] := by
  simp only [DevoteProtocol.Rolling, h, existsGE]
  rw [if_neg (by simp)]
  rw [show u64ofInt 1 = 1 from by decide]
  simp [trieInsert]

/-- A repeated mint in the same cycle increments the stored count. -/
theorem Rolling_second (t : Int) (W : Address) (d : DevoteProtocol)
    (h : d.minerRollingTrie =
      [(u64be (u64ofInt (goDiv t CycleInterval)) ++ W.bytes, u64be 1)]) :
    (d.Rolling t t W).minerRollingTrie =
      [(u64be (u64ofInt (goDiv t CycleInterval)) ++ W.bytes, u64be 2)] := by
  simp only [DevoteProtocol.Rolling, h]
  have hex : existsGE (u64be (u64ofInt (goDiv t CycleInterval)))
      [(u64be (u64ofInt (goDiv t CycleInterval)) ++ W.bytes, u64be 1)] = true := by
    simp [existsGE, lexLt_append]
  rw [if_pos ⟨trivial, hex⟩]
  have hg : trieGet (u64be (u64ofInt (goDiv t CycleInterval)) ++ W.bytes)
      [(u64be (u64ofInt (goDiv t CycleInterval)) ++ W.bytes, u64be 1)] =
      some (u64be 1) := by
    simp [trieGet]
  rw [hg]
  simp [trieInsert, lexLt_irrefl,
    show i64ofU64 (beU64 (u64be 1)) + 1 = 2 from by decide,
    show u64ofInt 2 = 2 from by decide]

/-- A mint whose current cycle differs from the parent cycle restarts the
count at 1 under the new cycle's key. -/
theorem Rolling_rollover (n : Nat) (W : Address) (d : DevoteProtocol) :
    (d.Rolling (n : Int) ((n : Int) + CycleInterval) W).minerRollingTrie =
      trieInsert
        (u64be (u64ofInt (goDiv ((n : Int) + CycleInterval) CycleInterval)) ++ W.bytes)
        (u64be 1) d.minerRollingTrie := by
  have hdiv : goDiv ((n : Int) + CycleInterval) CycleInterval =
      goDiv (n : Int) CycleInterval + 1 := by
    have h1 : ((n : Int) + CycleInterval) = ((n + 3600 : Nat) : Int) := by
      rw [show CycleInterval = (3600 : Int) from rfl]
      push_cast
      ring
    have h2 : goDiv ((n + 3600 : Nat) : Int) CycleInterval =
        (((n + 3600) / 3600 : Nat) : Int) := rfl
    have h3 : goDiv (n : Int) CycleInterval = ((n / 3600 : Nat) : Int) := rfl
    rw [h1, h2, h3, Nat.add_div_right _ (by norm_num)]
    push_cast
    ring
  have hne : ¬goDiv (n : Int) CycleInterval =
      goDiv ((n : Int) + CycleInterval) CycleInterval := by
    rw [hdiv]
    omega
  simp only [DevoteProtocol.Rolling]
  rw [if_neg (fun hc => hne hc.1)]
  rw [show u64ofInt 1 = 1 from by decide]

/-- C1 (counterexample): two managers whose six sub-roots differ exactly in
the vote-tally sub-root still produce identical combined roots, because
`DevoteProtocol.Root` does not feed the voteCnt root to the hasher — so the
claim that changing any single sub-root (including the vote-tally root)
changes the combined root is false. -/
theorem claim_C1_counterexample :
    trieRootHash voteCntOnly.voteCntTrie ≠ trieRootHash emptyDevote.voteCntTrie ∧
    DevoteProtocol.Root voteCntOnly = DevoteProtocol.Root emptyDevote :=
  ⟨by decide, rfl⟩

/-- C1 (amended): the combined root of a manager is a function of exactly
the five sub-roots {cycle, cache, masternode, vote, rotation}, serialized
in that fixed order, and of all six (voteTally included) for a checkpoint;
under the collision-free idealization of the hash, two states have equal
combined roots iff the serialized sub-roots agree pairwise — so equal
sub-roots give equal combined roots and changing any single included
sub-root changes the combined root. -/
theorem claim_C1_amended :
    (∀ d e : DevoteProtocol,
      DevoteProtocol.Root d = DevoteProtocol.Root e ↔
        (trieRootHash d.cycleTrie = trieRootHash e.cycleTrie ∧
         trieRootHash d.cacheTrie = trieRootHash e.cacheTrie ∧
         trieRootHash d.masternodeTrie = trieRootHash e.masternodeTrie ∧
         trieRootHash d.voteTrie = trieRootHash e.voteTrie ∧
         trieRootHash d.minerRollingTrie = trieRootHash e.minerRollingTrie)) ∧
    (∀ p q : DevoteProtocolAtomic,
      DevoteProtocolAtomic.Root p = DevoteProtocolAtomic.Root q ↔
        (p.CycleHash = q.CycleHash ∧ p.CacheHash = q.CacheHash ∧
         p.MasternodeHash = q.MasternodeHash ∧ p.VoteHash = q.VoteHash ∧
         p.MinerRollingHash = q.MinerRollingHash ∧
         p.VoteCntHash = q.VoteCntHash)) := by
  constructor
  · intro d e
    simp [DevoteProtocol.Root, keccakOfTrieRoots]
  · intro p q
    simp [DevoteProtocolAtomic.Root, keccakOfHashes]

/-- C3 (code bug): when the cycle trie's own commit succeeds but the cycle
trie database's commit fails, `Commit` executes `return nil, err` with the
stale nil `err` of the successful trie commit, so it reports success (a nil
error, and a nil checkpoint) although a sub-commit failed — the claimed
error propagation does not happen. -/
theorem claim_C3_bug_eval :
    DevoteProtocol.Commit commitBugEnv = (none, none) := rfl

/-- C5 (confirmed): delegating to an address with no live masternode
registration fails with the invalid-target error and leaves the manager —
in particular the vote and cache roots — unchanged. -/
theorem claim_C5 (d : DevoteProtocol) (D M : Address)
    (h : trieGet M.bytes d.masternodeTrie = none) :
    d.Delegate D M = (some ("invalid masternode to delegate"), d) ∧
    trieRootHash (d.Delegate D M).2.voteTrie = trieRootHash d.voteTrie ∧
    trieRootHash (d.Delegate D M).2.cacheTrie = trieRootHash d.cacheTrie := by
  have he : d.Delegate D M = (some ("invalid masternode to delegate"), d) := by
    simp only [DevoteProtocol.Delegate, h]
  exact ⟨he, by rw [he], by rw [he]⟩

/-- C10 (confirmed): un-delegating against a registered masternode when the
delegator has no vote entry at all fails with the mismatch error (the nil
read compares unequal to the 20-byte masternode address) and leaves the
manager unchanged. -/
theorem claim_C10 (d : DevoteProtocol) (D M : Address) (w : Bytes)
    (hm : trieGet M.bytes d.masternodeTrie = some w)
    (hv : trieGet D.bytes d.voteTrie = none) :
    d.UnDelegate D M = (some ("mismatch masternode to undelegate"), d) := by
  have hMne : M.bytes ≠ ([] : Bytes) := by
    intro hh
    have hl := M.size_eq
    rw [hh] at hl
    simp at hl
  simp only [DevoteProtocol.UnDelegate, hm, hv, Option.getD_none]
  rw [if_neg hMne]

/-- C6 (confirmed): after delegating to a registered masternode M1, calling
`UnDelegate` with a different registered masternode M2 fails with the
mismatch error and leaves the manager state unchanged. -/
theorem claim_C6 (d : DevoteProtocol) (D M1 M2 : Address) (w1 w2 : Bytes)
    (h1 : trieGet M1.bytes d.masternodeTrie = some w1)
    (h2 : trieGet M2.bytes d.masternodeTrie = some w2)
    (hne : M1 ≠ M2) :
    (d.Delegate D M1).1 = none ∧
    (d.Delegate D M1).2.UnDelegate D M2 =
      (some ("mismatch masternode to undelegate"), (d.Delegate D M1).2) := by
  have hbne : M2.bytes ≠ M1.bytes := by
    intro hh
    apply hne
    cases M1
    cases M2
    simp only at hh
    subst hh
    rfl
  have hvote : trieGet D.bytes ((d.Delegate D M1).2).voteTrie = some M1.bytes := by
    rw [Delegate_voteTrie_ok d D M1 w1 h1, trieGet_insert, if_pos rfl]
  have hmast : trieGet M2.bytes ((d.Delegate D M1).2).masternodeTrie = some w2 := by
    rw [Delegate_masternodeTrie]
    exact h2
  refine ⟨Delegate_err_none d D M1 w1 h1, ?_⟩
  simp only [DevoteProtocol.UnDelegate, hmast, hvote, Option.getD_some]
  rw [if_neg hbne]

/-- C7 (counterexample): for a delegator that already has a vote, Delegate
followed by UnDelegate does not restore the vote map — with `addrD1`
already voting for the registered masternode `addrM`, the round trip
removes the pre-existing vote entry, so the vote root differs from its
value before the Delegate call, refuting the unrestricted round-trip
claim. -/
theorem claim_C7_counterexample :
    trieGet addrM.bytes votedState.masternodeTrie = some addrM.bytes ∧
    trieRootHash
        ((votedState.Delegate addrD1 addrM).2.UnDelegate addrD1 addrM).2.voteTrie ≠
      trieRootHash votedState.voteTrie := by
  constructor
  · decide
  · decide

/-- C7 (amended): for every registered masternode M and every delegator D
that currently has no vote entry and no cache entry under M‖D, Delegate
followed by UnDelegate succeeds and leaves the vote and cache maps with
root hashes equal to their values before the Delegate call. -/
theorem claim_C7_amended (d : DevoteProtocol) (D M : Address) (w : Bytes)
    (hm : trieGet M.bytes d.masternodeTrie = some w)
    (hv : trieGet D.bytes d.voteTrie = none)
    (hc : trieGet (M.bytes ++ D.bytes) d.cacheTrie = none) :
    (d.Delegate D M).1 = none ∧
    ((d.Delegate D M).2.UnDelegate D M).1 = none ∧
    trieRootHash ((d.Delegate D M).2.UnDelegate D M).2.voteTrie =
      trieRootHash d.voteTrie ∧
    trieRootHash ((d.Delegate D M).2.UnDelegate D M).2.cacheTrie =
      trieRootHash d.cacheTrie := by
  have hd1 := Delegate_fresh d D M w hm hv
  have hd1' : (d.Delegate D M).2 =
      { d with
        cacheTrie := trieInsert (M.bytes ++ D.bytes) D.bytes d.cacheTrie,
        voteTrie := trieInsert D.bytes M.bytes d.voteTrie } := by
    rw [hd1]
  have hmast : trieGet M.bytes ((d.Delegate D M).2).masternodeTrie = some w := by
    rw [hd1']
    exact hm
  have hvote : trieGet D.bytes ((d.Delegate D M).2).voteTrie = some M.bytes := by
    rw [hd1']
    dsimp only
    rw [trieGet_insert, if_pos rfl]
  have hu : (d.Delegate D M).2.UnDelegate D M =
      (none,
        { (d.Delegate D M).2 with
          cacheTrie := trieDelete (M.bytes ++ D.bytes) ((d.Delegate D M).2).cacheTrie,
          voteTrie := trieDelete D.bytes ((d.Delegate D M).2).voteTrie }) := by
    simp only [DevoteProtocol.UnDelegate, hmast, hvote, Option.getD_some, if_true]
  refine ⟨by rw [hd1], by rw [hu], ?_, ?_⟩
  · rw [hu]
    dsimp only
    rw [hd1']
    dsimp only
    rw [trieDelete_insert_same, trieDelete_of_get_none _ _ hv]
  · rw [hu]
    dsimp only
    rw [hd1']
    dsimp only
    rw [trieDelete_insert_same, trieDelete_of_get_none _ _ hc]

/-- C9 (confirmed): taking a snapshot, applying any finite sequence of
mutating operations (Register, Unregister, Delegate, UnDelegate, Rolling,
SetWitnesses), and reverting to the snapshot restores all five snapshot
tries — cycle, cache, masternode, vote, minerRolling — to the root hashes
they had when the snapshot was taken. -/
theorem claim_C9 (d : DevoteProtocol) (ops : List DevoteOp) :
    trieRootHash ((applyOps d ops).RevertToSnapShot d.Snapshot).cycleTrie =
      trieRootHash d.cycleTrie ∧
    trieRootHash ((applyOps d ops).RevertToSnapShot d.Snapshot).cacheTrie =
      trieRootHash d.cacheTrie ∧
    trieRootHash ((applyOps d ops).RevertToSnapShot d.Snapshot).masternodeTrie =
      trieRootHash d.masternodeTrie ∧
    trieRootHash ((applyOps d ops).RevertToSnapShot d.Snapshot).voteTrie =
      trieRootHash d.voteTrie ∧
    trieRootHash ((applyOps d ops).RevertToSnapShot d.Snapshot).minerRollingTrie =
      trieRootHash d.minerRollingTrie :=
  ⟨rfl, rfl, rfl, rfl, rfl⟩

/-- C4 (counterexample): at the negative timestamp t0 = -1800 the third
call `Rolling(t0, t0+3600, W)` does not reset the count: Go's truncated
division puts t0 and t0+3600 in the same cycle (index 0), so the recorded
count under the new cycle's key is 3, not 1, refuting the claim for
arbitrary timestamps. -/
theorem claim_C4_counterexample :
    trieGet (u64be (u64ofInt (goDiv (negT + CycleInterval) CycleInterval)) ++ addrW.bytes)
        ((((emptyDevote.Rolling negT negT addrW).Rolling negT negT addrW).Rolling negT
          (negT + CycleInterval) addrW).minerRollingTrie) = some (u64be 3) ∧
    goDiv (negT + CycleInterval) CycleInterval = goDiv negT CycleInterval ∧
    u64be 3 ≠ u64be 1 := by
  decide

/-- C4 (amended): for every non-negative timestamp t0 (for which Go's
truncated division agrees with floor) and witness W, starting from a
rotation trie with no entries, `Rolling(t0, t0, W)` records count 1 under
the key (t0 div 3600)‖W, a second identical call records count 2, and
`Rolling(t0, t0+3600, W)` records count 1 under the new cycle's key. -/
theorem claim_C4_amended (n : Nat) (W : Address) (d : DevoteProtocol)
    (h : d.minerRollingTrie = []) :
    trieGet (u64be (u64ofInt (goDiv (n : Int) CycleInterval)) ++ W.bytes)
      ((d.Rolling (n : Int) (n : Int) W).minerRollingTrie) = some (u64be 1) ∧
    trieGet (u64be (u64ofInt (goDiv (n : Int) CycleInterval)) ++ W.bytes)
      (((d.Rolling (n : Int) (n : Int) W).Rolling (n : Int) (n : Int) W).minerRollingTrie) =
      some (u64be 2) ∧
    trieGet (u64be (u64ofInt (goDiv ((n : Int) + CycleInterval) CycleInterval)) ++ W.bytes)
      ((((d.Rolling (n : Int) (n : Int) W).Rolling (n : Int) (n : Int) W).Rolling
        (n : Int) ((n : Int) + CycleInterval) W).minerRollingTrie) = some (u64be 1) := by
  have h1 := Rolling_fresh (n : Int) W d h
  have h2 := Rolling_second (n : Int) W _ h1
  have h3 := Rolling_rollover n W
    ((d.Rolling (n : Int) (n : Int) W).Rolling (n : Int) (n : Int) W)
  refine ⟨?_, ?_, ?_⟩
  · rw [h1]
    simp [trieGet]
  · rw [h2]
    simp [trieGet]
  · rw [h3, trieGet_insert, if_pos rfl]

/-- C2 (confirmed): in any state where masternode M is registered under its
address and has delegators D1 and D2 (cache entries M‖D1 and M‖D2, vote
entries D1→M and D2→M), `Unregister(M)` returns no error and removes the
masternode entry, both cache entries and both vote entries; a second
`Unregister(M)` on the resulting state returns no error and changes
nothing. -/
theorem claim_C2 (d : DevoteProtocol) (M D1 D2 : Address) (acc : Bytes)
    (hreg : trieGet M.bytes d.masternodeTrie = some acc)
    (hc1 : trieGet (M.bytes ++ D1.bytes) d.cacheTrie = some D1.bytes)
    (hc2 : trieGet (M.bytes ++ D2.bytes) d.cacheTrie = some D2.bytes)
    (hv1 : trieGet D1.bytes d.voteTrie = some M.bytes)
    (hv2 : trieGet D2.bytes d.voteTrie = some M.bytes) :
    (d.Unregister M).1 = none ∧
    trieGet M.bytes (d.Unregister M).2.masternodeTrie = none ∧
    trieGet (M.bytes ++ D1.bytes) (d.Unregister M).2.cacheTrie = none ∧
    trieGet (M.bytes ++ D2.bytes) (d.Unregister M).2.cacheTrie = none ∧
    trieGet D1.bytes (d.Unregister M).2.voteTrie = none ∧
    trieGet D2.bytes (d.Unregister M).2.voteTrie = none ∧
    (d.Unregister M).2.Unregister M = (none, (d.Unregister M).2) := by
  have hMne : M.bytes ≠ ([] : Bytes) := by
    intro hh
    have hl := M.size_eq
    rw [hh] at hl
    simp at hl
  have hS : (d.Unregister M).2 =
      (entriesGE M.bytes d.cacheTrie).foldl (unregStep M.bytes)
        { d with masternodeTrie := trieDelete M.bytes d.masternodeTrie } := rfl
  have hmem1 : ((M.bytes ++ D1.bytes), D1.bytes) ∈ entriesGE M.bytes d.cacheTrie := by
    rw [mem_entriesGE]
    exact ⟨trieGet_mem _ _ _ hc1, lexLt_append _ _⟩
  have hmem2 : ((M.bytes ++ D2.bytes), D2.bytes) ∈ entriesGE M.bytes d.cacheTrie := by
    rw [mem_entriesGE]
    exact ⟨trieGet_mem _ _ _ hc2, lexLt_append _ _⟩
  have hgoal2 : trieGet M.bytes (d.Unregister M).2.masternodeTrie = none := by
    rw [hS, unregFold_masternodeTrie]
    show trieGet M.bytes (trieDelete M.bytes d.masternodeTrie) = none
    rw [trieGet_delete, if_pos rfl]
  have hgoal3 : trieGet (M.bytes ++ D1.bytes) (d.Unregister M).2.cacheTrie = none := by
    rw [hS]
    exact unregFold_cache_killed M.bytes _ _ _ hmem1
  have hgoal4 : trieGet (M.bytes ++ D2.bytes) (d.Unregister M).2.cacheTrie = none := by
    rw [hS]
    exact unregFold_cache_killed M.bytes _ _ _ hmem2
  have hgoal5 : trieGet D1.bytes (d.Unregister M).2.voteTrie = none := by
    rw [hS]
    exact unregFold_vote_gone M.bytes _ _ _ hmem1 (Or.inl hv1)
  have hgoal6 : trieGet D2.bytes (d.Unregister M).2.voteTrie = none := by
    rw [hS]
    exact unregFold_vote_gone M.bytes _ _ _ hmem2 (Or.inl hv2)
  have hcond : ∀ kv ∈ entriesGE M.bytes (d.Unregister M).2.cacheTrie,
      trieGet (M.bytes ++ kv.2) (d.Unregister M).2.cacheTrie = none ∧
      trieGet kv.2 (d.Unregister M).2.voteTrie ≠ some M.bytes := by
    intro kv hkv
    rw [mem_entriesGE] at hkv
    rcases hkv with ⟨hkv1, hkv2⟩
    rw [hS] at hkv1
    have hin_d : kv ∈ d.cacheTrie :=
      unregFold_cache_mem M.bytes (entriesGE M.bytes d.cacheTrie)
        { d with masternodeTrie := trieDelete M.bytes d.masternodeTrie } kv hkv1
    have hin_l : kv ∈ entriesGE M.bytes d.cacheTrie := by
      rw [mem_entriesGE]
      exact ⟨hin_d, hkv2⟩
    rw [hS]
    exact ⟨unregFold_cache_killed _ _ _ _ hin_l, unregFold_vote_not_m _ _ _ _ hin_l⟩
  have hsecond : (d.Unregister M).2.Unregister M = (none, (d.Unregister M).2) := by
    generalize hgen : (d.Unregister M).2 = S1 at hgoal2 hcond ⊢
    simp only [DevoteProtocol.Unregister]
    rw [trieDelete_of_get_none _ _ hgoal2]
    show (none, (entriesGE M.bytes S1.cacheTrie).foldl (unregStep M.bytes) S1) =
      (none, S1)
    rw [unregFold_id M.bytes hMne _ _ hcond]
  exact ⟨rfl, hgoal2, hgoal3, hgoal4, hgoal5, hgoal6, hsecond⟩

/-- C8 (confirmed): for any delegator D, after a nonempty sequence of
Delegate(D, ·) calls whose targets are all registered (so each call
succeeds), the vote map holds exactly one entry for D, and it points at
the masternode of the most recent call. -/
theorem claim_C8 (d : DevoteProtocol) (D : Address) (ms : List Address)
    (hne : ms ≠ [])
    (hsorted : sortedByKey d.voteTrie)
    (hreg : ∀ m ∈ ms, trieGet m.bytes d.masternodeTrie ≠ none) :
    countKey D.bytes (ms.foldl (fun st m => (st.Delegate D m).2) d).voteTrie = 1 ∧
    trieGet D.bytes (ms.foldl (fun st m => (st.Delegate D m).2) d).voteTrie =
      some (ms.getLast hne).bytes := by
  revert hne d
  induction ms with
  | nil =>
    intro d hne
    exact absurd rfl hne
  | cons m rest ih =>
    intro d hne hsorted hreg
    have hw : ∃ w, trieGet m.bytes d.masternodeTrie = some w := by
      cases hx : trieGet m.bytes d.masternodeTrie with
      | none => exact absurd hx (hreg m (List.mem_cons_self m rest))
      | some w => exact ⟨w, rfl⟩
    rcases hw with ⟨w, hw⟩
    have hvt := Delegate_voteTrie_ok d D m w hw
    have hmt := Delegate_masternodeTrie d D m
    cases rest with
    | nil =>
      rw [List.foldl_cons, List.foldl_nil]
      refine ⟨?_, ?_⟩
      · refine countKey_eq_one _ ?_ D.bytes m.bytes ?_
        · rw [hvt]
          exact sortedByKey_insert _ _ _ hsorted
        · rw [hvt, trieGet_insert, if_pos rfl]
      · rw [hvt, trieGet_insert, if_pos rfl]
        rfl
    | cons m2 rest2 =>
      rw [List.foldl_cons]
      have hres := ih ((d.Delegate D m).2) (by simp)
        (by rw [hvt]; exact sortedByKey_insert _ _ _ hsorted)
        (by
          intro x hx
          rw [hmt]
          exact hreg x (List.mem_cons_of_mem _ hx))
      exact hres

/-- Witness for C2 at a concrete two-delegator state. -/
theorem claim_C2_witness :
    (unregState.Unregister addrM).1 = none ∧
    trieGet addrM.bytes (unregState.Unregister addrM).2.masternodeTrie = none ∧
    trieGet (addrM.bytes ++ addrD1.bytes) (unregState.Unregister addrM).2.cacheTrie = none ∧
    trieGet (addrM.bytes ++ addrD2.bytes) (unregState.Unregister addrM).2.cacheTrie = none ∧
    trieGet addrD1.bytes (unregState.Unregister addrM).2.voteTrie = none ∧
    trieGet addrD2.bytes (unregState.Unregister addrM).2.voteTrie = none ∧
    (unregState.Unregister addrM).2.Unregister addrM =
      (none, (unregState.Unregister addrM).2) :=
  claim_C2 unregState addrM addrD1 addrD2 addrM.bytes (by decide) (by decide)
    (by decide) (by decide) (by decide)

/-- Witness for C4 at timestamp 0 on the empty state. -/
theorem claim_C4_witness :
    trieGet (u64be (u64ofInt (goDiv ((0 : Nat) : Int) CycleInterval)) ++ addrW.bytes)
      ((emptyDevote.Rolling ((0 : Nat) : Int) ((0 : Nat) : Int) addrW).minerRollingTrie) =
      some (u64be 1) ∧
    trieGet (u64be (u64ofInt (goDiv ((0 : Nat) : Int) CycleInterval)) ++ addrW.bytes)
      (((emptyDevote.Rolling ((0 : Nat) : Int) ((0 : Nat) : Int) addrW).Rolling
        ((0 : Nat) : Int) ((0 : Nat) : Int) addrW).minerRollingTrie) = some (u64be 2) ∧
    trieGet (u64be (u64ofInt (goDiv (((0 : Nat) : Int) + CycleInterval) CycleInterval)) ++
        addrW.bytes)
      ((((emptyDevote.Rolling ((0 : Nat) : Int) ((0 : Nat) : Int) addrW).Rolling
        ((0 : Nat) : Int) ((0 : Nat) : Int) addrW).Rolling ((0 : Nat) : Int)
        (((0 : Nat) : Int) + CycleInterval) addrW).minerRollingTrie) = some (u64be 1) :=
  claim_C4_amended 0 addrW emptyDevote rfl

/-- Witness for C5 at the empty state, whose masternode map is empty. -/
theorem claim_C5_witness :
    emptyDevote.Delegate addrD1 addrM =
      (some ("invalid masternode to delegate"), emptyDevote) ∧
    trieRootHash (emptyDevote.Delegate addrD1 addrM).2.voteTrie =
      trieRootHash emptyDevote.voteTrie ∧
    trieRootHash (emptyDevote.Delegate addrD1 addrM).2.cacheTrie =
      trieRootHash emptyDevote.cacheTrie :=
  claim_C5 emptyDevote addrD1 addrM (by decide)

/-- Witness for C6 with two concrete registered masternodes. -/
theorem claim_C6_witness :
    (votedState.Delegate addrD3 addrM).1 = none ∧
    (votedState.Delegate addrD3 addrM).2.UnDelegate addrD3 addrM2 =
      (some ("mismatch masternode to undelegate"),
        (votedState.Delegate addrD3 addrM).2) :=
  claim_C6 votedState addrD3 addrM addrM2 addrM.bytes addrM2.bytes (by decide)
    (by decide) (by decide)

/-- Witness for C7 (amended) with a concrete fresh delegator. -/
theorem claim_C7_witness :
    (votedState.Delegate addrD3 addrM).1 = none ∧
    ((votedState.Delegate addrD3 addrM).2.UnDelegate addrD3 addrM).1 = none ∧
    trieRootHash ((votedState.Delegate addrD3 addrM).2.UnDelegate addrD3 addrM).2.voteTrie =
      trieRootHash votedState.voteTrie ∧
    trieRootHash ((votedState.Delegate addrD3 addrM).2.UnDelegate addrD3 addrM).2.cacheTrie =
      trieRootHash votedState.cacheTrie :=
  claim_C7_amended votedState addrD3 addrM addrM.bytes (by decide) (by decide) (by decide)

/-- Witness for C8 with a concrete two-target delegation sequence. -/
theorem claim_C8_witness :
    countKey addrD3.bytes
      ([addrM, addrM2].foldl (fun st m => (st.Delegate addrD3 m).2) votedState).voteTrie = 1 ∧
    trieGet addrD3.bytes
      ([addrM, addrM2].foldl (fun st m => (st.Delegate addrD3 m).2) votedState).voteTrie =
      some (([addrM, addrM2].getLast (by decide)).bytes) :=
  claim_C8 votedState addrD3 [addrM, addrM2] (by decide)
    (by simp [sortedByKey, votedState]) (by decide)

/-- Witness for C10 with a concrete registered masternode and voteless
delegator. -/
theorem claim_C10_witness :
    votedState.UnDelegate addrD3 addrM =
      (some ("mismatch masternode to undelegate"), votedState) :=
  claim_C10 votedState addrD3 addrM addrM.bytes (by decide) (by decide)
